import Mathlib

/-!
A verification development for the `scope` package of `panicrx/genutil`
(file `scope/scope.go`).

The package allocates collision-free, language-legal identifiers for
generated Go code.  The central data structure is a tree of scopes, each
owning a set of locally claimed names and an optional parent link; the
policy leaves are a name sanitizer (`defaultSafeNameFunc`), a bounded
unique-name generator (`defaultUniqueNameFunc`), a variable-name
suggestion heuristic (`defaultSuggestVarNameFunc`), and the standalone
visibility transforms (`Exported` / `Unexported`).

The shallow embedding below translates the Go source.  Character
classification and case mapping model the `unicode` package functions; they
are faithful on the ASCII range (every input appearing in this development
is ASCII).  Go strings are modelled by Lean `String` (valid Unicode; invalid
UTF-8 byte sequences, which Go represents via `utf8.RuneError` during
decoding, are not representable, and the decode-error branches of the
source are noted where they occur).  The mutable scope tree is modelled by
a heap: a list of scope records indexed by position, where a parent link is
the index of the parent record.  A Go `panic` is modelled by returning the
failure side of a sum (carrying the state at the moment of the panic).
-/

/-- Model of `unicode.IsUpper` (faithful on ASCII: code points 65–90). -/
def goIsUpper (c : Char) : Bool := 65 ≤ c.toNat && c.toNat ≤ 90

/-- Model of `unicode.IsLower` (faithful on ASCII: code points 97–122). -/
def goIsLower (c : Char) : Bool := 97 ≤ c.toNat && c.toNat ≤ 122

/-- Model of `unicode.IsLetter` (category L; faithful on ASCII). -/
def goIsLetter (c : Char) : Bool := goIsUpper c || goIsLower c

/-- Model of `unicode.IsDigit` and of membership in category N for the
`unicode.In(in, unicode.Letter, unicode.Number)` test (faithful on ASCII,
where category N is exactly the digits 48–57). -/
def goIsDigit (c : Char) : Bool := 48 ≤ c.toNat && c.toNat ≤ 57

/-- Model of `unicode.ToLower` (faithful on ASCII). -/
def goToLower (c : Char) : Char :=
  if goIsUpper c then Char.ofNat (c.toNat + 32) else c

/-- Model of `unicode.ToUpper` (faithful on ASCII). -/
def goToUpper (c : Char) : Char :=
  if goIsLower c then Char.ofNat (c.toNat - 32) else c

/-- `utf8.RuneError` (U+FFFD), produced by `utf8.DecodeRuneInString` on an
empty string. -/
def runeErr : Char := Char.ofNat 0xFFFD

/-- First component of `utf8.DecodeRuneInString`: the first character of the
string, or `utf8.RuneError` if the string is empty. -/
def headRune (s : String) : Char := s.data.headD runeErr

/-- `onlyValidIdentChars` from `scope.go` as a keep/drop predicate: a
character is kept by `strings.Map(onlyValidIdentChars, ·)` iff it is `_`, a
letter, or a number. -/
def validIdentChar (c : Char) : Bool := c == '_' || goIsLetter c || goIsDigit c

/-- The 25 Go keywords recognised by `token.IsKeyword`. -/
def goKeywords : List String :=
  ["break", "case", "chan", "const", "continue", "default", "defer", "else",
   "fallthrough", "for", "func", "go", "goto", "if", "import", "interface",
   "map", "package", "range", "return", "select", "struct", "switch", "type",
   "var"]

/-- Model of `token.IsKeyword`. -/
def isKeyword (s : String) : Bool := goKeywords.contains s

/-- The predeclared-identifier list from `predeclared` in `scope.go`. -/
def goPredeclared : List String :=
  ["bool", "byte", "complex64", "complex128", "error", "float32", "float64",
   "int", "int8", "int16", "int32", "int64", "rune", "string", "uint",
   "uint8", "uint16", "uint32", "uint64", "uintptr", "true", "false", "iota",
   "nil", "append", "cap", "close", "complex", "copy", "delete", "imag",
   "len", "make", "new", "panic", "print", "println", "real", "recover",
   "any"]

/-- `predeclared` from `scope.go`. -/
def isPredeclared (s : String) : Bool := goPredeclared.contains s

/-- `defaultSafeNameFunc` from `scope.go`: filter to valid identifier
characters, fall back to `"v"` on empty, prepend `_` for keywords and
predeclared names, prepend `_` when the (possibly already prepended)
leading character is neither a letter nor `_`. -/
def defaultSafeNameFunc (name : String) : String :=
  let n1 : String := ⟨name.data.filter validIdentChar⟩
  if n1.data = [] then "v"
  else
    let n2 := if isKeyword n1 || isPredeclared n1 then "_" ++ n1 else n1
    if !goIsLetter (headRune n2) && headRune n2 != '_' then "_" ++ n2 else n2

example : defaultSafeNameFunc "" = "v" := by decide
example : defaultSafeNameFunc "panic" = "_panic" := by decide
example : defaultSafeNameFunc "func" = "_func" := by decide
example : defaultSafeNameFunc "123" = "_123" := by decide
example : defaultSafeNameFunc "v" = "v" := by decide
example : defaultSafeNameFunc "_panic" = "_panic" := by decide

/-- The decimal digit with value `n` (for `n < 10`). -/
def decDigit (n : Nat) : Char := Char.ofNat (48 + n)

/-- Decimal digit list of `n`, most significant first; structural fuel (any
fuel above `n` is enough, since the recursion divides by 10). -/
def decDigitsAux : Nat → Nat → List Char
  | 0, _ => []
  | fuel + 1, n =>
    if n < 10 then [decDigit n]
    else decDigitsAux fuel (n / 10) ++ [decDigit (n % 10)]

/-- Model of `fmt.Sprintf("%d", n)` for a natural number: standard decimal
notation. -/
def natDec (n : Nat) : String := ⟨decDigitsAux (n + 1) n⟩

example : natDec 0 = "0" := by decide
example : natDec 998 = "998" := by decide

/-- One scope record of the `Scope` tree: the optional parent link (as an
index into the heap) and the set of locally claimed names (`defs`).  The
three per-scope policy overrides of the source are `nil` throughout this
development (every scope in the claims is built without options), so the
walk-up resolution of `safeName`/`uniqueName`/`suggestVarName` always
reaches the built-in defaults and the override fields are omitted. -/
structure GoScope where
  parent : Option Nat
  defs : List String
deriving Repr, DecidableEq

/-- The scope tree as a heap: the record of scope `i` is at position `i`.
`Scope.New` always creates children after their parents, so every parent
link points to a smaller index; `wfHeap` states that. -/
def Heap := List GoScope

instance : DecidableEq Heap := inferInstanceAs (DecidableEq (List GoScope))

/-- Every parent link points strictly downwards in the heap (true of every
heap built by `New` / `Scope.New`, which append children after parents). -/
def wfHeap (σ : List GoScope) : Bool :=
  (List.range σ.length).all fun j =>
    match σ.get? j with
    | some s => match s.parent with
                | some p => decide (p < j)
                | none => true
    | none => true

/-- Membership of `name` in the local `defs` set of scope `j`. -/
def memDefs (σ : List GoScope) (j : Nat) (name : String) : Bool :=
  match σ.get? j with
  | some s => s.defs.contains name
  | none => false

/-- `Scope.defined` from `scope.go`: look in the local set, then (only when
`recursive`) ask the parent, recursively with `recursive = true`.  The fuel
argument bounds the parent-chain walk; on a well-formed heap the chain from
`i` strictly decreases, so fuel `i + 1` always suffices. -/
def definedAux : Nat → List GoScope → Nat → String → Bool → Bool
  | 0, _, _, _, _ => false
  | fuel + 1, σ, i, name, rec =>
    match σ.get? i with
    | none => false
    | some s =>
      if s.defs.contains name then true
      else if rec then
        match s.parent with
        | some p => definedAux fuel σ p name true
        | none => false
      else false

/-- `Scope.defined`, with the fuel instantiated to `i + 1`. -/
def defined (σ : List GoScope) (i : Nat) (name : String) (rec : Bool) : Bool :=
  definedAux (i + 1) σ i name rec

/-- `s.defs[name] = true`: set `name` in the local map of scope `i` (map
assignment, hence a no-op when already present). -/
def addDef (σ : List GoScope) (i : Nat) (name : String) : List GoScope :=
  match σ.get? i with
  | none => σ
  | some s =>
    σ.set i { s with defs := if s.defs.contains name then s.defs else name :: s.defs }

/-- The candidate loop of `defaultUniqueNameFunc`: starting at index `ndx`
with `rem` attempts remaining, return the first `safe ++ natDec n` that is
not `defined`, or `none` (the Go code panics) when the attempts run out. -/
def findFreeFrom (σ : List GoScope) (i : Nat) (safe : String) (rec : Bool) :
    Nat → Nat → Option String
  | _, 0 => none
  | ndx, rem + 1 =>
    let cand := safe ++ natDec ndx
    if defined σ i cand rec then findFreeFrom σ i safe rec (ndx + 1) rem
    else some cand

/-- `defaultUniqueNameFunc` from `scope.go`: re-sanitize the base name,
then try the suffixed candidates `safe0`, `safe1`, … with a hard cap of
`maxAttempts = 999`; `none` models the `panic` after the cap. -/
def defaultUniqueNameFunc (σ : List GoScope) (i : Nat) (name : String)
    (rec : Bool) : Option String :=
  findFreeFrom σ i (defaultSafeNameFunc name) rec 0 999

/-- `Scope.define` from `scope.go`.  `Sum.inl σb` models a `panic` raised
with the heap in state `σb`; `Sum.inr (σ2, r)` is normal return of `r`.
If the name is taken, retry with the unique-name generator's candidate;
otherwise insert it locally and, when `recursive`, run the same `define` on
the parent (whose returned name is discarded, as in the source).  The fuel
bounds the combined retry/propagation depth; `define` instantiates it with
`σ.length + 2`, which is enough for every run on a well-formed heap (at
most one generator retry, then one step per ancestor). -/
def defineF : Nat → List GoScope → Nat → String → Bool →
    Sum (List GoScope) (List GoScope × String)
  | 0, σ, _, _, _ => Sum.inl σ
  | fuel + 1, σ, i, name, rec =>
    if defined σ i name rec then
      match defaultUniqueNameFunc σ i name rec with
      | none => Sum.inl σ
      | some cand => defineF fuel σ i cand rec
    else
      match σ.get? i with
      | none => Sum.inl σ
      | some s =>
        let σ1 := addDef σ i name
        match rec, s.parent with
        | true, some p =>
          match defineF fuel σ1 p name true with
          | Sum.inl σb => Sum.inl σb
          | Sum.inr (σ2, _) => Sum.inr (σ2, name)
        | _, _ => Sum.inr (σ1, name)

/-- `Scope.define` with adequate fuel. -/
def define (σ : List GoScope) (i : Nat) (safeName : String) (rec : Bool) :
    Sum (List GoScope) (List GoScope × String) :=
  defineF (σ.length + 2) σ i safeName rec

/-- `Scope.Claim`: `s.define(s.safeName(name), false)` (the walk-up
`safeName` resolution yields `defaultSafeNameFunc` on override-free
scopes). -/
def Claim (σ : List GoScope) (i : Nat) (name : String) :
    Sum (List GoScope) (List GoScope × String) :=
  define σ i (defaultSafeNameFunc name) false

/-- `Scope.ClaimGlobal`: `s.define(s.safeName(name), true)`. -/
def ClaimGlobal (σ : List GoScope) (i : Nat) (name : String) :
    Sum (List GoScope) (List GoScope × String) :=
  define σ i (defaultSafeNameFunc name) true

/-- A fresh root scope: `New()`. -/
def freshRoot : List GoScope := [⟨none, []⟩]

/-- A root with one derived child (`g1 := New(); s1 := g1.New()`): index 0
is the root, index 1 the child. -/
def rootAndChild : List GoScope := [⟨none, []⟩, ⟨some 0, []⟩]

example : Claim freshRoot 0 "" = Sum.inr ([⟨none, ["v"]⟩], "v") := by decide
example : Claim freshRoot 0 "panic" = Sum.inr ([⟨none, ["_panic"]⟩], "_panic") := by decide
example : ClaimGlobal rootAndChild 1 "panic" =
    Sum.inr ([⟨none, ["_panic"]⟩, ⟨some 0, ["_panic"]⟩], "_panic") := by decide
example : Claim [⟨none, ["_panic"]⟩, ⟨some 0, ["_panic"]⟩] 0 "panic" =
    Sum.inr ([⟨none, ["_panic0", "_panic"]⟩, ⟨some 0, ["_panic"]⟩], "_panic0") := by decide

/-- The scan loop of `defaultSuggestVarNameFunc`: walk the remaining
characters with `u0` remembering whether the previous character was
uppercase, accumulating the lowercased uppercase characters; abort (second
component `false`) on `utf8.RuneError` or on two consecutive uppercase
characters.  (Invalid UTF-8, the other source of `RuneError` in Go, is not
representable in the model's strings.) -/
def suggestLoop : List Char → Bool → List Char → List Char × Bool
  | [], _, acc => (acc, true)
  | c :: rest, u0, acc =>
    if c = runeErr then (acc, false)
    else if u0 && goIsUpper c then (acc, false)
    else suggestLoop rest (goIsUpper c)
      (if goIsUpper c then acc ++ [goToLower c] else acc)

/-- The body of `defaultSuggestVarNameFunc` before its deferred
post-processing: decode the first character (`RuneError` on empty input),
start the accumulator with its lowercase form, run the scan loop; if the
loop completed, return the accumulator, otherwise trim leading non-letters
from the original input and return the lowercased first remaining letter,
or `"v"` when none exists. -/
def suggestCore (input : List Char) : List Char :=
  let r := input.headD runeErr
  let p := suggestLoop input.tail (goIsUpper r) [goToLower r]
  if p.2 then p.1
  else
    match input.dropWhile (fun c => !goIsLetter c) with
    | [] => ['v']
    | c :: _ => [goToLower c]

/-- `defaultSuggestVarNameFunc` from `scope.go`, including the deferred
post-processing: replace a bare `"_"` result by `"v"`, then sanitize. -/
def defaultSuggestVarNameFunc (input : String) : String :=
  let ret := suggestCore input.data
  defaultSafeNameFunc ⟨if ret = ['_'] then ['v'] else ret⟩

/-- `Scope.Suggest`: on override-free scopes the walk-up resolution of
`suggestVarName` always yields `defaultSuggestVarNameFunc`; the scope
arguments are therefore unused. -/
def Suggest (_σ : List GoScope) (_i : Nat) (input : String) : String :=
  defaultSuggestVarNameFunc input

example : Suggest freshRoot 0 "a" = "a" := by decide
example : Suggest freshRoot 0 "aPerson" = "ap" := by decide
example : Suggest freshRoot 0 "HTTP" = "h" := by decide
example : Suggest freshRoot 0 "FxUxNxC" = "_func" := by decide
example : Suggest freshRoot 0 "_" = "v" := by decide

/-- Model of `token.IsIdentifier`: non-empty, not a keyword, every
character a letter, `_`, or (except in first position) a digit. -/
def goIsIdentifier (s : String) : Bool :=
  match s.data with
  | [] => false
  | c :: rest =>
    !isKeyword s && (goIsLetter c || c == '_') &&
      rest.all fun d => goIsLetter d || d == '_' || goIsDigit d

/-- Model of `token.IsExported`: the first character (decoded as by
`utf8.DecodeRuneInString`) is an uppercase letter. -/
def goIsExported (s : String) : Bool := goIsUpper (headRune s)

/-- `unexported` (lowercase helper) from `scope.go`: if not exported,
return unchanged; otherwise lowercase the leading character. -/
def unexportedCore (l : List Char) : List Char :=
  match l with
  | [] => []
  | c :: rest => if goIsUpper c then goToLower c :: rest else c :: rest

/-- `Unexported` from `scope.go`: `none` models the `panic` on a
non-identifier input. -/
def Unexported (s : String) : Option String :=
  if !goIsIdentifier s then none else some ⟨unexportedCore s.data⟩

/-- The two `panic` messages of `Exported`, kept distinct: the validation
failure on a non-identifier input, and the wrapped "input does not contain
any uppercase letters" error from the `exported` helper. -/
inductive ExpErr where
  | invalidIdent : ExpErr
  | noPublicForm : ExpErr
deriving Repr, DecidableEq

/-- `exported` (lowercase helper) from `scope.go`: error on the empty
string; return the input if already exported; otherwise uppercase the
leading character, return if now exported, else strip it and retry on the
remainder. -/
def exportedCore : List Char → Option (List Char)
  | [] => none
  | c :: rest =>
    if goIsUpper c then some (c :: rest)
    else if goIsUpper (goToUpper c) then some (goToUpper c :: rest)
    else exportedCore rest

/-- `Exported` from `scope.go`: panic (here: a distinguished error) when
the input is not an identifier, otherwise run `exported` and panic with its
(distinct) error on failure. -/
def Exported (s : String) : Except ExpErr String :=
  if !goIsIdentifier s then Except.error ExpErr.invalidIdent
  else
    match exportedCore s.data with
    | none => Except.error ExpErr.noPublicForm
    | some l => Except.ok ⟨l⟩

deriving instance DecidableEq for Except

example : Exported "x" = Except.ok "X" := by decide
example : Exported "X" = Except.ok "X" := by decide
example : Exported "_X" = Except.ok "X" := by decide
example : Exported "_" = Except.error ExpErr.noPublicForm := by decide
example : Exported "" = Except.error ExpErr.invalidIdent := by decide
example : Unexported "Break" = some "break" := by decide
example : Unexported "break" = none := by decide

/-! ### Lemmas about the sanitizer -/

theorem data_append (s t : String) : (s ++ t).data = s.data ++ t.data := rfl

theorem data_mk (l : List Char) : (String.mk l).data = l := rfl

theorem keyword_head (w : String) (hw : w ∈ goKeywords) :
    w.data.head? ≠ some '_' := by
  fin_cases hw <;> decide

theorem predeclared_head (w : String) (hw : w ∈ goPredeclared) :
    w.data.head? ≠ some '_' := by
  fin_cases hw <;> decide

theorem not_kw_underscore (s : String) : isKeyword ("_" ++ s) = false := by
  unfold isKeyword
  rw [Bool.eq_false_iff]
  intro h
  exact keyword_head _ (List.mem_of_elem_eq_true h) (by simp [data_append])

theorem not_pre_underscore (s : String) : isPredeclared ("_" ++ s) = false := by
  unfold isPredeclared
  rw [Bool.eq_false_iff]
  intro h
  exact predeclared_head _ (List.mem_of_elem_eq_true h) (by simp [data_append])

/-- Any string already in sanitized form is a fixed point of the
sanitizer. -/
theorem sanitize_fix (t : String)
    (hchars : ∀ c ∈ t.data, validIdentChar c = true)
    (hne : t.data ≠ [])
    (hkw : isKeyword t = false) (hpre : isPredeclared t = false)
    (hhead : (goIsLetter (headRune t) || headRune t == '_') = true) :
    defaultSafeNameFunc t = t := by
  have hfilter : t.data.filter validIdentChar = t.data :=
    List.filter_eq_self.mpr hchars
  have hcond : (!goIsLetter (headRune t) && headRune t != '_') = false := by
    cases hl : goIsLetter (headRune t) with
    | true => simp [hl]
    | false =>
      rw [hl, Bool.false_or] at hhead
      have h2 : headRune t = '_' := eq_of_beq hhead
      simp [bne, h2]
  unfold defaultSafeNameFunc
  simp only [hfilter]
  have ht : (⟨t.data⟩ : String) = t := rfl
  rw [ht, if_neg hne, hkw, hpre]
  simp only [Bool.or_self, Bool.false_eq_true, if_false]
  rw [hcond]
  simp

/-- The output of the sanitizer is in sanitized form: all characters valid,
non-empty, not a keyword or predeclared name, leading character a letter or
underscore. -/
theorem sanitize_out (s : String) :
    (∀ c ∈ (defaultSafeNameFunc s).data, validIdentChar c = true) ∧
    (defaultSafeNameFunc s).data ≠ [] ∧
    isKeyword (defaultSafeNameFunc s) = false ∧
    isPredeclared (defaultSafeNameFunc s) = false ∧
    (goIsLetter (headRune (defaultSafeNameFunc s)) ||
      headRune (defaultSafeNameFunc s) == '_') = true := by
  unfold defaultSafeNameFunc
  by_cases h1 : (s.data.filter validIdentChar) = []
  · simp only [data_mk]
    rw [if_pos h1]
    refine ⟨?_, by decide, by decide, by decide, by decide⟩
    intro c hc
    have hd : ("v" : String).data = ['v'] := rfl
    rw [hd] at hc
    have : c = 'v' := by
      cases hc with
      | head => rfl
      | tail _ h => cases h
    rw [this]; decide
  · simp only [data_mk, if_neg h1]
    have hmemvalid : ∀ c ∈ s.data.filter validIdentChar, validIdentChar c = true :=
      fun c hc => (List.mem_filter.mp hc).2
    set n1 : String := ⟨s.data.filter validIdentChar⟩ with hn1
    have hn1chars : ∀ c ∈ n1.data, validIdentChar c = true := hmemvalid
    have hn1ne : n1.data ≠ [] := h1
    by_cases hkw : (isKeyword n1 || isPredeclared n1) = true
    · -- keyword / predeclared: prepend `_`; leading char then `_`
      simp only [hkw, if_true]
      have hhd : headRune ("_" ++ n1) = '_' := by
        unfold headRune
        rw [data_append]
        rfl
      have hcond : (!goIsLetter (headRune ("_" ++ n1)) &&
          headRune ("_" ++ n1) != '_') = false := by
        rw [hhd]; decide
      rw [hcond]
      simp only [Bool.false_eq_true, if_false]
      refine ⟨?_, ?_, not_kw_underscore n1, not_pre_underscore n1, ?_⟩
      · intro c hc
        rw [data_append] at hc
        cases hc with
        | head => decide
        | tail _ h => exact hn1chars _ h
      · rw [data_append]; simp
      · rw [hhd]; decide
    · rw [if_neg hkw]
      rw [Bool.or_eq_true, not_or] at hkw
      obtain ⟨hkw1, hpre1⟩ := hkw
      rw [Bool.not_eq_true] at hkw1 hpre1
      by_cases hlead : (!goIsLetter (headRune n1) && headRune n1 != '_') = true
      · -- leading char invalid: prepend `_`
        simp only [hlead, if_true]
        have hhd : headRune ("_" ++ n1) = '_' := by
          unfold headRune
          rw [data_append]
          rfl
        refine ⟨?_, ?_, not_kw_underscore n1, not_pre_underscore n1, ?_⟩
        · intro c hc
          rw [data_append] at hc
          cases hc with
          | head => decide
          | tail _ h => exact hn1chars _ h
        · rw [data_append]; simp
        · rw [hhd]; decide
      · rw [if_neg hlead]
        refine ⟨hn1chars, hn1ne, hkw1, hpre1, ?_⟩
        cases hl : goIsLetter (headRune n1) with
        | true => simp [hl]
        | false =>
          cases hb : headRune n1 == '_' with
          | true => simp [hl, hb]
          | false =>
            exact absurd (by simp [hl, bne, hb]) hlead

/-- C4 core: the default sanitizer is idempotent. -/
theorem sanitize_idem (s : String) :
    defaultSafeNameFunc (defaultSafeNameFunc s) = defaultSafeNameFunc s := by
  obtain ⟨h1, h2, h3, h4, h5⟩ := sanitize_out s
  exact sanitize_fix _ h1 h2 h3 h4 h5

/-! ### Lemmas about decimal suffixes -/

theorem decDigit_toNat (m : Nat) (h : m < 10) : (decDigit m).toNat = 48 + m := by
  interval_cases m <;> decide

/-- Value of a decimal digit list, most significant first. -/
def digitsVal (l : List Char) : Nat :=
  l.foldl (fun a c => a * 10 + (c.toNat - 48)) 0

theorem digitsVal_decDigitsAux :
    ∀ fuel n, n < fuel → digitsVal (decDigitsAux fuel n) = n := by
  intro fuel
  induction fuel with
  | zero => intro n h; omega
  | succ f ih =>
    intro n h
    unfold decDigitsAux
    by_cases h10 : n < 10
    · rw [if_pos h10]
      unfold digitsVal
      simp [decDigit_toNat n h10]
    · rw [if_neg h10]
      unfold digitsVal
      rw [List.foldl_append]
      have hdiv : n / 10 < f := by
        have h1 : n / 10 < n := Nat.div_lt_self (by omega) (by omega)
        omega
      have hX := ih (n / 10) hdiv
      unfold digitsVal at hX
      rw [hX]
      simp only [List.foldl_cons, List.foldl_nil]
      rw [decDigit_toNat (n % 10) (Nat.mod_lt n (by omega))]
      omega

theorem natDec_inj (m n : Nat) (h : natDec m = natDec n) : m = n := by
  have hd : decDigitsAux (m + 1) m = decDigitsAux (n + 1) n := by
    have := congrArg String.data h
    simpa [natDec] using this
  have hm := digitsVal_decDigitsAux (m + 1) m (Nat.lt_succ_self m)
  have hn := digitsVal_decDigitsAux (n + 1) n (Nat.lt_succ_self n)
  rw [← hm, ← hn, hd]

theorem natDec_ne_nil (n : Nat) : (natDec n).data ≠ [] := by
  unfold natDec decDigitsAux
  by_cases h10 : n < 10
  · rw [if_pos h10]; simp
  · rw [if_neg h10]; simp

/-- The 1000 candidate names that `Claim "v"` can ever produce on a
default scope: the sanitized base `"v"` and the suffixed forms
`"v0" … "v998"`. -/
def candList : List String :=
  "v" :: (List.range 999).map (fun k => "v" ++ natDec k)

theorem candList_length : candList.length = 1000 := by
  simp [candList]

theorem vDec_inj (m n : Nat) (h : "v" ++ natDec m = "v" ++ natDec n) : m = n := by
  apply natDec_inj
  have := congrArg String.data h
  rw [data_append, data_append] at this
  exact String.ext (List.append_cancel_left this)

theorem candList_nodup : candList.Nodup := by
  unfold candList
  rw [List.nodup_cons]
  constructor
  · intro hmem
    obtain ⟨k, _, hk⟩ := List.mem_map.mp hmem
    have := congrArg String.data hk
    rw [data_append] at this
    have hv : ("v" : String).data = ['v'] := rfl
    rw [hv] at this
    have : (natDec k).data = [] := by
      cases hnd : (natDec k).data with
      | nil => rfl
      | cons a l =>
        rw [hnd] at this
        simp at this
    exact natDec_ne_nil k this
  · exact (List.nodup_range 999).map (fun a b hab => vDec_inj a b hab)

/-! ### Lemmas about the scope heap -/

theorem get_some_of_lt {σ : List GoScope} {i : Nat} (h : i < σ.length) :
    ∃ s, σ.get? i = some s := by
  rw [List.get?_eq_getElem?]
  exact ⟨σ[i], List.getElem?_eq_some.mpr ⟨h, rfl⟩⟩

theorem lt_length_of_get {σ : List GoScope} {i : Nat} {s : GoScope}
    (h : σ.get? i = some s) : i < σ.length := by
  by_contra hc
  rw [List.get?_eq_none.mpr (by omega)] at h
  cases h

/-- On a well-formed heap, parent links point strictly downwards. -/
theorem wf_parent {σ : List GoScope} (hwf : wfHeap σ = true) {j p : Nat}
    {s : GoScope} (hj : σ.get? j = some s) (hp : s.parent = some p) : p < j := by
  have hjlen : j < σ.length := lt_length_of_get hj
  have hall := List.all_eq_true.mp hwf j (List.mem_range.mpr hjlen)
  rw [hj] at hall
  simp only at hall
  rw [hp] at hall
  simp only at hall
  exact of_decide_eq_true hall

/-- The fuel of `definedAux` is irrelevant once it covers the start index:
on a well-formed heap, the parent chain from `i` never revisits an index
`≥ i`. -/
theorem definedAux_fuel {σ : List GoScope} (hwf : wfHeap σ = true) :
    ∀ fuel i name rec, i + 1 ≤ fuel →
      definedAux fuel σ i name rec = defined σ i name rec := by
  intro fuel
  induction fuel using Nat.strong_induction_on with
  | _ fuel ih =>
    intro i name rec hle
    match fuel, hle with
    | f + 1, hle =>
      unfold defined
      conv_rhs => rw [definedAux]
      rw [definedAux]
      cases hget : σ.get? i with
      | none => rfl
      | some s =>
        simp only
        cases hc : s.defs.contains name with
        | true => simp
        | false =>
          simp only [Bool.false_eq_true, if_false]
          cases rec with
          | false => simp
          | true =>
            simp only [if_true]
            cases hp : s.parent with
            | none => rfl
            | some p =>
              simp only
              have hpi : p < i := wf_parent hwf hget hp
              have h1 : definedAux f σ p name true = defined σ p name true :=
                ih f (by omega) p name true (by omega)
              have h2 : definedAux i σ p name true = defined σ p name true :=
                ih i (by omega) p name true (by omega)
              rw [h1, h2]

/-- Non-recursive `defined` is exactly local membership: it never consults
ancestors. -/
theorem defined_false (σ : List GoScope) (i : Nat) (name : String) :
    defined σ i name false = memDefs σ i name := by
  unfold defined memDefs
  rw [definedAux]
  cases hget : σ.get? i with
  | none => rfl
  | some s =>
    simp only
    cases hc : s.defs.contains name <;> simp

/-- Recursive `defined` unfolds to the local check and the parent's
recursive check. -/
theorem defined_true_unfold {σ : List GoScope} (hwf : wfHeap σ = true)
    {i : Nat} {s : GoScope} (hget : σ.get? i = some s) (name : String) :
    defined σ i name true =
      (s.defs.contains name ||
        match s.parent with
        | some p => defined σ p name true
        | none => false) := by
  unfold defined
  rw [definedAux]
  rw [hget]
  simp only
  cases hc : s.defs.contains name with
  | true => simp
  | false =>
    simp only [Bool.false_eq_true, if_false, if_true, Bool.false_or]
    cases hp : s.parent with
    | none => rfl
    | some p =>
      simp only
      have hpi : p < i := wf_parent hwf hget hp
      exact definedAux_fuel hwf i p name true (by omega)

theorem addDef_length (σ : List GoScope) (i : Nat) (name : String) :
    (addDef σ i name).length = σ.length := by
  unfold addDef
  cases hget : σ.get? i with
  | none => rfl
  | some s => simp

theorem addDef_get_ne (σ : List GoScope) {i j : Nat} (name : String)
    (h : j ≠ i) : (addDef σ i name).get? j = σ.get? j := by
  unfold addDef
  cases hget : σ.get? i with
  | none => rfl
  | some s => exact List.get?_set_ne _ _ (fun he => h he.symm)

theorem addDef_get_self {σ : List GoScope} {i : Nat} {s : GoScope}
    (name : String) (hget : σ.get? i = some s) :
    (addDef σ i name).get? i =
      some { s with
        defs := if s.defs.contains name then s.defs else name :: s.defs } := by
  unfold addDef
  rw [hget]
  simp only
  exact List.get?_set_eq_of_lt _ (lt_length_of_get hget)

theorem addDef_parent (σ : List GoScope) (i : Nat) (name : String) (j : Nat) :
    ((addDef σ i name).get? j).map GoScope.parent =
      (σ.get? j).map GoScope.parent := by
  by_cases hj : j = i
  · subst hj
    cases hget : σ.get? j with
    | none =>
      have hid : addDef σ j name = σ := by
        unfold addDef
        rw [hget]
      rw [hid, hget]
    | some s =>
      rw [addDef_get_self name hget]
      rfl
  · rw [addDef_get_ne σ name hj]

theorem wf_addDef {σ : List GoScope} (hwf : wfHeap σ = true) (i : Nat)
    (name : String) : wfHeap (addDef σ i name) = true := by
  unfold wfHeap
  rw [List.all_eq_true]
  intro j hj
  rw [addDef_length] at hj
  have hj' : j < σ.length := List.mem_range.mp hj
  cases hget : (addDef σ i name).get? j with
  | none => rfl
  | some t =>
    simp only
    cases hp : t.parent with
    | none => rfl
    | some p =>
      simp only
      have hpar := addDef_parent σ i name j
      rw [hget] at hpar
      cases hget0 : σ.get? j with
      | none => rw [hget0] at hpar; simp at hpar
      | some s =>
        rw [hget0] at hpar
        simp at hpar
        have : s.parent = some p := by rw [← hpar, hp]
        exact decide_eq_true (wf_parent hwf hget0 this)

theorem memDefs_addDef_self {σ : List GoScope} {i : Nat} {s : GoScope}
    (name : String) (hget : σ.get? i = some s) :
    memDefs (addDef σ i name) i name = true := by
  unfold memDefs
  rw [addDef_get_self name hget]
  simp only
  cases hc : s.defs.contains name with
  | true => simpa using hc
  | false => simp

theorem memDefs_addDef_mono {σ : List GoScope} {j : Nat} {n : String}
    (i : Nat) (name : String) (h : memDefs σ j n = true) :
    memDefs (addDef σ i name) j n = true := by
  unfold memDefs at h ⊢
  by_cases hj : j = i
  · subst hj
    cases hget : σ.get? j with
    | none => rw [hget] at h; simp at h
    | some s =>
      rw [hget] at h
      simp only at h
      rw [addDef_get_self name hget]
      simp only
      cases hc : s.defs.contains name with
      | true => simpa using h
      | false =>
        simp only [Bool.false_eq_true, if_false]
        rw [List.contains_cons, h]
        simp
  · rw [addDef_get_ne σ name hj]
    exact h

/-- Adding a name at index `i0` does not change any `defined` query that
starts strictly below `i0` (the chain from there stays below `i0`). -/
theorem definedAux_addDef_lt {σ : List GoScope} (hwf : wfHeap σ = true)
    (i0 : Nat) (m : String) :
    ∀ fuel p name rec, p < i0 →
      definedAux fuel (addDef σ i0 m) p name rec =
        definedAux fuel σ p name rec := by
  intro fuel
  induction fuel with
  | zero => intro p name rec _; rfl
  | succ f ih =>
    intro p name rec hp
    rw [definedAux, definedAux]
    rw [addDef_get_ne σ m (by omega)]
    cases hget : σ.get? p with
    | none => rfl
    | some s =>
      simp only
      cases hc : s.defs.contains name with
      | true => rfl
      | false =>
        cases rec with
        | false => rfl
        | true =>
          simp only [Bool.false_eq_true, if_false, if_true]
          cases hpar : s.parent with
          | none => rfl
          | some q =>
            simp only
            have hq : q < p := wf_parent hwf hget hpar
            exact ih q name true (by omega)

theorem defined_addDef_lt {σ : List GoScope} (hwf : wfHeap σ = true)
    {i0 p : Nat} (m name : String) (rec : Bool) (hp : p < i0) :
    defined (addDef σ i0 m) p name rec = defined σ p name rec :=
  definedAux_addDef_lt hwf i0 m (p + 1) p name rec hp

/-- The ancestor chain of scope `i`, starting with `i` itself, read off the
parent links; fuel `i + 1` suffices on a well-formed heap. -/
def chainAux : Nat → List GoScope → Nat → List Nat
  | 0, _, _ => []
  | fuel + 1, σ, i =>
    i :: (match σ.get? i with
          | some s =>
            match s.parent with
            | some p => chainAux fuel σ p
            | none => []
          | none => [])

/-- The ancestor chain of `i` (including `i`). -/
def chain (σ : List GoScope) (i : Nat) : List Nat := chainAux (i + 1) σ i

theorem chainAux_fuel {σ : List GoScope} (hwf : wfHeap σ = true) :
    ∀ fuel i, i + 1 ≤ fuel → chainAux fuel σ i = chain σ i := by
  intro fuel
  induction fuel using Nat.strong_induction_on with
  | _ fuel ih =>
    intro i hle
    match fuel, hle with
    | f + 1, hle =>
      unfold chain
      conv_rhs => rw [chainAux]
      rw [chainAux]
      cases hget : σ.get? i with
      | none => rfl
      | some s =>
        simp only
        cases hp : s.parent with
        | none => rfl
        | some p =>
          simp only
          have hpi : p < i := wf_parent hwf hget hp
          rw [ih f (by omega) p (by omega), ih i (by omega) p (by omega)]

theorem chainAux_addDef (σ : List GoScope) (i0 : Nat) (m : String) :
    ∀ fuel i, chainAux fuel (addDef σ i0 m) i = chainAux fuel σ i := by
  intro fuel
  induction fuel with
  | zero => intro i; rfl
  | succ f ih =>
    intro i
    rw [chainAux, chainAux]
    have hpar := addDef_parent σ i0 m i
    cases hget : (addDef σ i0 m).get? i with
    | none =>
      rw [hget] at hpar
      cases hget0 : σ.get? i with
      | none => rfl
      | some s => rw [hget0] at hpar; simp at hpar
    | some t =>
      rw [hget] at hpar
      cases hget0 : σ.get? i with
      | none => rw [hget0] at hpar; simp at hpar
      | some s =>
        rw [hget0] at hpar
        simp at hpar
        simp only
        rw [← hpar]
        cases hp : t.parent with
        | none => rfl
        | some p => simp only; rw [ih p]

theorem chain_addDef (σ : List GoScope) (i0 : Nat) (m : String) (i : Nat) :
    chain (addDef σ i0 m) i = chain σ i :=
  chainAux_addDef σ i0 m (i + 1) i

/-! ### Lemmas about the unique-name generator -/

theorem findFreeFrom_some (σ : List GoScope) (i : Nat) (safe : String)
    (rec : Bool) :
    ∀ rem ndx r, findFreeFrom σ i safe rec ndx rem = some r →
      ∃ k, ndx ≤ k ∧ k < ndx + rem ∧ r = safe ++ natDec k ∧
        defined σ i r rec = false ∧
        ∀ m, ndx ≤ m → m < k → defined σ i (safe ++ natDec m) rec = true := by
  intro rem
  induction rem with
  | zero => intro ndx r h; cases h
  | succ rm ih =>
    intro ndx r h
    rw [findFreeFrom] at h
    cases hd : defined σ i (safe ++ natDec ndx) rec with
    | true =>
      rw [hd] at h
      simp only [if_true] at h
      obtain ⟨k, hk1, hk2, hk3, hk4, hk5⟩ := ih (ndx + 1) r h
      refine ⟨k, by omega, by omega, hk3, hk4, ?_⟩
      intro m hm1 hm2
      by_cases hme : m = ndx
      · rw [hme]; exact hd
      · exact hk5 m (by omega) hm2
    | false =>
      rw [hd] at h
      simp only [Bool.false_eq_true, if_false, Option.some.injEq] at h
      exact ⟨ndx, by omega, by omega, h.symm, by rw [← h]; exact hd,
        fun m hm1 hm2 => by omega⟩

theorem findFreeFrom_none (σ : List GoScope) (i : Nat) (safe : String)
    (rec : Bool) :
    ∀ rem ndx, findFreeFrom σ i safe rec ndx rem = none →
      ∀ m, ndx ≤ m → m < ndx + rem →
        defined σ i (safe ++ natDec m) rec = true := by
  intro rem
  induction rem with
  | zero => intro ndx _ m h1 h2; omega
  | succ rm ih =>
    intro ndx h m hm1 hm2
    rw [findFreeFrom] at h
    cases hd : defined σ i (safe ++ natDec ndx) rec with
    | true =>
      rw [hd] at h
      simp only [if_true] at h
      by_cases hme : m = ndx
      · rw [hme]; exact hd
      · exact ih (ndx + 1) h m (by omega) (by omega)
    | false =>
      rw [hd] at h
      simp at h

theorem findFreeFrom_none_of (σ : List GoScope) (i : Nat) (safe : String)
    (rec : Bool) :
    ∀ rem ndx,
      (∀ m, ndx ≤ m → m < ndx + rem →
        defined σ i (safe ++ natDec m) rec = true) →
      findFreeFrom σ i safe rec ndx rem = none := by
  intro rem
  induction rem with
  | zero => intro ndx _; rfl
  | succ rm ih =>
    intro ndx hall
    rw [findFreeFrom]
    rw [hall ndx (by omega) (by omega)]
    simp only [if_true]
    exact ih (ndx + 1) fun m h1 h2 => hall m (by omega) (by omega)

/-! ### Lemmas about `define` -/

/-- A successful `defineF` only ever adds names: every prior local
membership survives. -/
theorem defineF_mono :
    ∀ fuel σ i name rec σ2 r,
      defineF fuel σ i name rec = Sum.inr (σ2, r) →
      ∀ j n, memDefs σ j n = true → memDefs σ2 j n = true := by
  intro fuel
  induction fuel with
  | zero => intro σ i name rec σ2 r h; cases h
  | succ f ih =>
    intro σ i name rec σ2 r h j n hmem
    rw [defineF] at h
    cases hd : defined σ i name rec with
    | true =>
      rw [hd] at h
      simp only [if_true] at h
      cases hu : defaultUniqueNameFunc σ i name rec with
      | none => rw [hu] at h; cases h
      | some cand =>
        rw [hu] at h
        simp only at h
        exact ih σ i cand rec σ2 r h j n hmem
    | false =>
      rw [hd] at h
      simp only [Bool.false_eq_true, if_false] at h
      cases hget : σ.get? i with
      | none => rw [hget] at h; cases h
      | some s =>
        rw [hget] at h
        simp only at h
        have hmem1 : memDefs (addDef σ i name) j n = true :=
          memDefs_addDef_mono i name hmem
        cases rec with
        | false =>
          simp only at h
          cases h with
          | refl => exact hmem1
        | true =>
          cases hp : s.parent with
          | none =>
            rw [hp] at h
            simp only at h
            cases h with
            | refl => exact hmem1
          | some p =>
            rw [hp] at h
            simp only at h
            cases hrec : defineF f (addDef σ i name) p name true with
            | inl σb => rw [hrec] at h; cases h
            | inr pr =>
              rw [hrec] at h
              cases h with
              | refl =>
                exact ih (addDef σ i name) p name true pr.1 pr.2 (by rw [hrec]) j n hmem1

/-- Core of `ClaimGlobal`: when the name is free along the whole ancestor
chain, `define` inserts it at the scope and at every ancestor and returns
it unchanged; fuel `i + 1` suffices because the ancestors never rename. -/
theorem defineF_propagate :
    ∀ fuel σ i name, wfHeap σ = true → i < σ.length → i + 1 ≤ fuel →
      defined σ i name true = false →
      ∃ σ2, defineF fuel σ i name true = Sum.inr (σ2, name) ∧
        ∀ j ∈ chain σ i, memDefs σ2 j name = true := by
  intro fuel
  induction fuel with
  | zero => intro σ i name _ _ hle _; omega
  | succ f ih =>
    intro σ i name hwf hlen hle hnd
    obtain ⟨s, hget⟩ := get_some_of_lt hlen
    have hchain : chain σ i =
        i :: (match s.parent with
              | some p => chain σ p
              | none => []) := by
      unfold chain
      rw [chainAux, hget]
      simp only
      cases hp : s.parent with
      | none => rfl
      | some p =>
        simp only
        have hpi := wf_parent hwf hget hp
        rw [chainAux_fuel hwf i p (by omega), chainAux_fuel hwf (p + 1) p (by omega)]
    cases hp : s.parent with
    | none =>
      have hval : defineF (f + 1) σ i name true =
          Sum.inr (addDef σ i name, name) := by
        rw [defineF, hnd]
        simp only [Bool.false_eq_true, if_false]
        rw [hget]
        simp only
        rw [hp]
      refine ⟨addDef σ i name, hval, ?_⟩
      intro j hj
      rw [hchain, hp] at hj
      have hji : j = i := by
        cases hj with
        | head => rfl
        | tail _ hx => cases hx
      rw [hji]
      exact memDefs_addDef_self name hget
    | some p =>
      have hpi := wf_parent hwf hget hp
      have hnd' : defined σ p name true = false := by
        have hu := defined_true_unfold hwf hget name
        rw [hnd, hp] at hu
        simp only at hu
        cases hdp : defined σ p name true with
        | false => rfl
        | true => rw [hdp] at hu; simp at hu
      have hnd1 : defined (addDef σ i name) p name true = false := by
        rw [defined_addDef_lt hwf name name true hpi]
        exact hnd'
      have hwf1 := wf_addDef hwf i name
      have hlen1 : p < (addDef σ i name).length := by
        rw [addDef_length]; omega
      obtain ⟨σ2, hrec, hmem⟩ :=
        ih (addDef σ i name) p name hwf1 hlen1 (by omega) hnd1
      have hval : defineF (f + 1) σ i name true = Sum.inr (σ2, name) := by
        rw [defineF, hnd]
        simp only [Bool.false_eq_true, if_false]
        rw [hget]
        simp only
        rw [hp]
        simp only
        rw [hrec]
      refine ⟨σ2, hval, ?_⟩
      intro j hj
      rw [hchain, hp] at hj
      cases List.mem_cons.mp hj with
      | inl hji =>
        rw [hji]
        exact defineF_mono f (addDef σ i name) p name true σ2 name hrec i name
          (memDefs_addDef_self name hget)
      | inr hjp =>
        apply hmem
        rw [chain_addDef]
        exact hjp

/-- A successful non-recursive `define` returns a name that was free in the
local set and adds exactly that name to scope `i`, leaving every other
scope untouched. -/
theorem defineF_local :
    ∀ fuel σ i name σ2 r,
      defineF fuel σ i name false = Sum.inr (σ2, r) →
      memDefs σ i r = false ∧ σ2 = addDef σ i r ∧ memDefs σ2 i r = true := by
  intro fuel
  induction fuel with
  | zero => intro σ i name σ2 r h; cases h
  | succ f ih =>
    intro σ i name σ2 r h
    rw [defineF] at h
    cases hd : defined σ i name false with
    | true =>
      rw [hd] at h
      simp only [if_true] at h
      cases hu : defaultUniqueNameFunc σ i name false with
      | none => rw [hu] at h; cases h
      | some cand =>
        rw [hu] at h
        simp only at h
        exact ih σ i cand σ2 r h
    | false =>
      rw [hd] at h
      simp only [Bool.false_eq_true, if_false] at h
      cases hget : σ.get? i with
      | none => rw [hget] at h; cases h
      | some s =>
        rw [hget] at h
        simp only at h
        cases h with
        | refl =>
          rw [defined_false] at hd
          exact ⟨hd, rfl, memDefs_addDef_self name hget⟩

/-- A failed non-recursive `define` leaves the heap exactly as it was. -/
theorem defineF_local_fail :
    ∀ fuel σ i name σb,
      defineF fuel σ i name false = Sum.inl σb → σb = σ := by
  intro fuel
  induction fuel with
  | zero =>
    intro σ i name σb h
    cases h with
    | refl => rfl
  | succ f ih =>
    intro σ i name σb h
    rw [defineF] at h
    cases hd : defined σ i name false with
    | true =>
      rw [hd] at h
      simp only [if_true] at h
      cases hu : defaultUniqueNameFunc σ i name false with
      | none =>
        rw [hu] at h
        cases h with
        | refl => rfl
      | some cand =>
        rw [hu] at h
        simp only at h
        exact ih σ i cand σb h
    | false =>
      rw [hd] at h
      simp only [Bool.false_eq_true, if_false] at h
      cases hget : σ.get? i with
      | none =>
        rw [hget] at h
        cases h with
        | refl => rfl
      | some s =>
        rw [hget] at h
        simp only at h
        cases h

/-- Case analysis of `ClaimGlobal` on a well-formed heap: either it
succeeds, returning a name that was recursively free and is afterwards in
the local set of the scope and of every ancestor, or it aborts with the
heap unchanged. -/
theorem claimGlobal_cases (σ : List GoScope) (i : Nat) (raw : String)
    (hwf : wfHeap σ = true) (hlen : i < σ.length) :
    (∃ σ2 r, ClaimGlobal σ i raw = Sum.inr (σ2, r) ∧
      defined σ i r true = false ∧
      ∀ j ∈ chain σ i, memDefs σ2 j r = true) ∨
    ClaimGlobal σ i raw = Sum.inl σ := by
  unfold ClaimGlobal define
  cases hd : defined σ i (defaultSafeNameFunc raw) true with
  | false =>
    obtain ⟨σ2, hval, hmem⟩ := defineF_propagate (σ.length + 2) σ i
      (defaultSafeNameFunc raw) hwf hlen (by omega) hd
    exact Or.inl ⟨σ2, defaultSafeNameFunc raw, hval, hd, hmem⟩
  | true =>
    have hstep : defineF (σ.length + 2) σ i (defaultSafeNameFunc raw) true =
        (match defaultUniqueNameFunc σ i (defaultSafeNameFunc raw) true with
         | none => Sum.inl σ
         | some cand => defineF (σ.length + 1) σ i cand true) := by
      conv_lhs => rw [show σ.length + 2 = (σ.length + 1) + 1 from rfl, defineF]
      rw [hd]
      simp only [if_true]
    cases hu : defaultUniqueNameFunc σ i (defaultSafeNameFunc raw) true with
    | none =>
      right
      rw [hstep, hu]
    | some cand =>
      obtain ⟨k, _, _, hck, hfree, _⟩ :=
        findFreeFrom_some σ i (defaultSafeNameFunc (defaultSafeNameFunc raw))
          true 999 0 cand hu
      obtain ⟨σ2, hval, hmem⟩ := defineF_propagate (σ.length + 1) σ i cand
        hwf hlen (by omega) hfree
      left
      refine ⟨σ2, cand, ?_, hfree, hmem⟩
      rw [hstep, hu]
      exact hval

/-! ### Lemmas about the visibility transforms -/

theorem goIsUpper_goToLower (c : Char) : goIsUpper (goToLower c) = false := by
  unfold goToLower
  cases h : goIsUpper c with
  | false => simp only [Bool.false_eq_true, if_false]; exact h
  | true =>
    simp only [if_true]
    have h1 : 65 ≤ c.toNat ∧ c.toNat ≤ 90 := by
      unfold goIsUpper at h
      simpa using h
    obtain ⟨hlo, hhi⟩ := h1
    set n := c.toNat with hn
    interval_cases n <;> decide

theorem unexportedCore_idem (l : List Char) :
    unexportedCore (unexportedCore l) = unexportedCore l := by
  cases l with
  | nil => rfl
  | cons c rest =>
    unfold unexportedCore
    cases h : goIsUpper c with
    | false => simp [h]
    | true => simp [h, goIsUpper_goToLower]

theorem keyword_head_not_upper :
    ∀ w ∈ goKeywords, goIsUpper (headRune w) = false := by decide

theorem isKeyword_false_of_upper {s : String}
    (h : goIsUpper (headRune s) = true) : isKeyword s = false := by
  cases hk : isKeyword s with
  | false => rfl
  | true =>
    have hmem := List.mem_of_elem_eq_true hk
    rw [keyword_head_not_upper s hmem] at h
    cases h

/-- A successful `exported` run returns a list headed by an uppercase
letter whose tail is a suffix of the input's tail (the stripped leading
characters were all incapable of capitalization). -/
theorem exportedCore_some :
    ∀ l r, exportedCore l = some r →
      ∃ c t, r = c :: t ∧ goIsUpper c = true ∧ t <:+ l.tail := by
  intro l
  induction l with
  | nil => intro r h; cases h
  | cons a rest ih =>
    intro r h
    rw [exportedCore] at h
    cases h1 : goIsUpper a with
    | true =>
      rw [h1] at h
      simp only [if_true, Option.some.injEq] at h
      exact ⟨a, rest, h.symm, h1, List.suffix_refl rest⟩
    | false =>
      rw [h1] at h
      simp only [Bool.false_eq_true, if_false] at h
      cases h2 : goIsUpper (goToUpper a) with
      | true =>
        rw [h2] at h
        simp only [if_true, Option.some.injEq] at h
        exact ⟨goToUpper a, rest, h.symm, h2, List.suffix_refl rest⟩
      | false =>
        rw [h2] at h
        simp only [Bool.false_eq_true, if_false] at h
        obtain ⟨c, t, hr, hc, hsuf⟩ := ih r h
        exact ⟨c, t, hr, hc, hsuf.trans (List.tail_suffix rest)⟩

/-- A name returned by a successful `Exported` is itself a legal exported
identifier, and `Exported` fixes it. -/
theorem exported_fix {s r : String} (h : Exported s = Except.ok r) :
    goIsIdentifier r = true ∧ Exported r = Except.ok r := by
  unfold Exported at h
  cases hid : goIsIdentifier s with
  | false => rw [hid] at h; simp at h
  | true =>
    rw [hid] at h
    simp only [Bool.not_true, Bool.false_eq_true, if_false] at h
    cases hc : exportedCore s.data with
    | none => rw [hc] at h; cases h
    | some rl =>
      rw [hc] at h
      simp only [Except.ok.injEq] at h
      obtain ⟨c, t, hrl, hup, hsuf⟩ := exportedCore_some s.data rl hc
      have hrdata : r.data = c :: t := by rw [← h, hrl]
      have hhead : headRune r = c := by unfold headRune; rw [hrdata]; rfl
      have hidr : goIsIdentifier r = true := by
        unfold goIsIdentifier
        rw [hrdata]
        have hkwr : isKeyword r = false :=
          isKeyword_false_of_upper (by rw [hhead]; exact hup)
        rw [hkwr]
        simp only [Bool.not_false, Bool.true_and]
        have hlet : goIsLetter c = true := by
          unfold goIsLetter
          rw [hup]
          rfl
        rw [hlet]
        simp only [Bool.true_or, Bool.true_and]
        -- every character of `t` was a non-initial character of `s`
        unfold goIsIdentifier at hid
        cases hs : s.data with
        | nil => rw [hs] at hid; cases hid
        | cons c0 rest0 =>
          rw [hs] at hid
          simp only [Bool.and_eq_true] at hid
          have hall := hid.2
          rw [hs] at hsuf
          rw [List.all_eq_true] at hall ⊢
          intro d hd
          exact hall d (hsuf.subset hd)
      refine ⟨hidr, ?_⟩
      unfold Exported
      rw [hidr]
      simp only [Bool.not_true, Bool.false_eq_true, if_false]
      have : exportedCore r.data = some r.data := by
        rw [hrdata, exportedCore, hup]
        simp
      rw [this]

/-! ### Repeated claiming (`Claim "v"` a thousand times) -/

/-- `k` successive `Claim name` calls on scope `i`, collecting the returned
names; a panic in any call aborts the whole sequence. -/
def claimSeq (σ : List GoScope) (i : Nat) (name : String) :
    Nat → Sum (List GoScope) (List GoScope × List String)
  | 0 => Sum.inr (σ, [])
  | k + 1 =>
    match claimSeq σ i name k with
    | Sum.inl σb => Sum.inl σb
    | Sum.inr (σk, rets) =>
      match Claim σk i name with
      | Sum.inl σb => Sum.inl σb
      | Sum.inr (σ2, r) => Sum.inr (σ2, rets ++ [r])

theorem memDefs_root (ds : List String) (n : String) :
    memDefs [⟨none, ds⟩] 0 n = ds.contains n := rfl

theorem addDef_root (ds : List String) (name : String)
    (hfree : ds.contains name = false) :
    addDef [⟨none, ds⟩] 0 name = [⟨none, name :: ds⟩] := by
  have hred : addDef [⟨none, ds⟩] 0 name =
      [⟨none, if ds.contains name then ds else name :: ds⟩] := rfl
  rw [hred, hfree]
  rfl

/-- `Claim` on a root scope when the sanitized name is still free. -/
theorem claim_fresh (ds : List String) (name : String)
    (hv : ds.contains (defaultSafeNameFunc name) = false) :
    Claim [⟨none, ds⟩] 0 name =
      Sum.inr ([⟨none, defaultSafeNameFunc name :: ds⟩],
        defaultSafeNameFunc name) := by
  unfold Claim define
  have hd : defined [⟨none, ds⟩] 0 (defaultSafeNameFunc name) false = false := by
    rw [defined_false, memDefs_root]
    exact hv
  rw [show ([(⟨none, ds⟩ : GoScope)] : List GoScope).length + 2 = 2 + 1 from rfl,
    defineF, hd]
  simp only [Bool.false_eq_true, if_false]
  rw [show ([(⟨none, ds⟩ : GoScope)] : List GoScope).get? 0 =
    some ⟨none, ds⟩ from rfl]
  simp only
  rw [addDef_root ds _ hv]

/-- `Claim` on a root scope when the sanitized name is taken but the
generator finds a free suffixed candidate. -/
theorem claim_retry (ds : List String) (name : String)
    (hv : ds.contains (defaultSafeNameFunc name) = true) {cand : String}
    (hu : defaultUniqueNameFunc [⟨none, ds⟩] 0 (defaultSafeNameFunc name)
      false = some cand)
    (hfree : ds.contains cand = false) :
    Claim [⟨none, ds⟩] 0 name = Sum.inr ([⟨none, cand :: ds⟩], cand) := by
  unfold Claim define
  have hd : defined [⟨none, ds⟩] 0 (defaultSafeNameFunc name) false = true := by
    rw [defined_false, memDefs_root]
    exact hv
  rw [show ([(⟨none, ds⟩ : GoScope)] : List GoScope).length + 2 = 2 + 1 from rfl,
    defineF, hd]
  simp only [if_true]
  rw [hu]
  simp only
  have hd2 : defined [⟨none, ds⟩] 0 cand false = false := by
    rw [defined_false, memDefs_root]
    exact hfree
  rw [show (2 : Nat) = 1 + 1 from rfl, defineF, hd2]
  simp only [Bool.false_eq_true, if_false]
  rw [show ([(⟨none, ds⟩ : GoScope)] : List GoScope).get? 0 =
    some ⟨none, ds⟩ from rfl]
  simp only
  rw [addDef_root ds _ hfree]

/-- `Claim` on a root scope when the sanitized name and all 999 suffixed
candidates are taken: the call panics and the heap is unchanged. -/
theorem claim_exhausted (ds : List String) (name : String)
    (hv : ds.contains (defaultSafeNameFunc name) = true)
    (hu : defaultUniqueNameFunc [⟨none, ds⟩] 0 (defaultSafeNameFunc name)
      false = none) :
    Claim [⟨none, ds⟩] 0 name = Sum.inl [⟨none, ds⟩] := by
  unfold Claim define
  have hd : defined [⟨none, ds⟩] 0 (defaultSafeNameFunc name) false = true := by
    rw [defined_false, memDefs_root]
    exact hv
  rw [show ([(⟨none, ds⟩ : GoScope)] : List GoScope).length + 2 = 2 + 1 from rfl,
    defineF, hd]
  simp only [if_true]
  rw [hu]

/-- Invariant of repeated `Claim "v"` on a fresh root: after `k ≤ 1000`
calls none has panicked, the returns are distinct candidates, and the
root's local set holds exactly the returns. -/
theorem claimSeq_v_invariant :
    ∀ k, k ≤ 1000 →
      ∃ rets : List String,
        claimSeq freshRoot 0 "v" k = Sum.inr ([⟨none, rets.reverse⟩], rets) ∧
        rets.Nodup ∧ rets.length = k ∧ ∀ r ∈ rets, r ∈ candList := by
  intro k
  induction k with
  | zero =>
    intro _
    exact ⟨[], rfl, List.nodup_nil, rfl, by intro r h; cases h⟩
  | succ kk ih =>
    intro hk
    obtain ⟨rets, hcs, hnd, hlen, hsub⟩ := ih (by omega)
    set ds := rets.reverse with hds
    have hsv : defaultSafeNameFunc "v" = "v" := by decide
    cases hv : ds.contains "v" with
    | false =>
      have hclaim := claim_fresh ds "v" (by rw [hsv]; exact hv)
      rw [hsv] at hclaim
      have hnotin : "v" ∉ rets := by
        intro hmem
        have hmd : "v" ∈ ds := by rw [hds]; exact List.mem_reverse.mpr hmem
        have hx : ds.contains "v" = true := List.elem_eq_true_of_mem hmd
        rw [hx] at hv
        cases hv
      refine ⟨rets ++ ["v"], ?_, ?_, ?_, ?_⟩
      · rw [claimSeq, hcs]
        simp only
        rw [hclaim]
        simp only
        rw [List.reverse_append]
        rfl
      · rw [List.nodup_append]
        refine ⟨hnd, List.nodup_singleton _, ?_⟩
        intro a ha hb
        have : a = "v" := by
          cases hb with
          | head => rfl
          | tail _ hx => cases hx
        rw [this] at ha
        exact hnotin ha
      · simp [hlen]
      · intro r hr
        cases List.mem_append.mp hr with
        | inl h => exact hsub r h
        | inr h =>
          have : r = "v" := by
            cases h with
            | head => rfl
            | tail _ hx => cases hx
          rw [this]
          exact List.mem_cons_self _ _
    | true =>
      have hnone : defaultUniqueNameFunc [⟨none, ds⟩] 0 "v" false ≠ none := by
        intro hu
        unfold defaultUniqueNameFunc at hu
        rw [hsv] at hu
        have hall := findFreeFrom_none _ _ _ _ 999 0 hu
        have hsubc : ∀ c ∈ candList, c ∈ ds := by
          intro c hc
          cases List.mem_cons.mp hc with
          | inl h => rw [h]; exact List.mem_of_elem_eq_true hv
          | inr h =>
            obtain ⟨m, hm, hcm⟩ := List.mem_map.mp h
            have hmlt : m < 999 := List.mem_range.mp hm
            have hdm := hall m (by omega) (by omega)
            rw [defined_false, memDefs_root] at hdm
            rw [← hcm]
            exact List.mem_of_elem_eq_true hdm
        have hsp := List.subperm_of_subset candList_nodup hsubc
        have hle := hsp.length_le
        rw [candList_length] at hle
        have hds_len : ds.length = kk := by
          rw [hds, List.length_reverse, hlen]
        omega
      cases hu : defaultUniqueNameFunc [⟨none, ds⟩] 0 "v" false with
      | none => exact absurd hu hnone
      | some cand =>
        have hu' := hu
        unfold defaultUniqueNameFunc at hu'
        obtain ⟨m, _, hmlt, hcm, hfree, _⟩ :=
          findFreeFrom_some [⟨none, ds⟩] 0
            (defaultSafeNameFunc (defaultSafeNameFunc "v")) false 999 0 cand hu'
        rw [defined_false, memDefs_root] at hfree
        have hclaim := claim_retry ds "v" (by rw [hsv]; exact hv) hu hfree
        have hcandmem : cand ∈ candList := by
          rw [hcm, hsv, hsv]
          exact List.mem_cons_of_mem _
            (List.mem_map.mpr ⟨m, List.mem_range.mpr (by omega), rfl⟩)
        have hnotin : cand ∉ rets := by
          intro hmem
          have hmd : cand ∈ ds := by rw [hds]; exact List.mem_reverse.mpr hmem
          have hx : ds.contains cand = true := List.elem_eq_true_of_mem hmd
          rw [hx] at hfree
          cases hfree
        refine ⟨rets ++ [cand], ?_, ?_, ?_, ?_⟩
        · rw [claimSeq, hcs]
          simp only
          rw [hclaim]
          simp only
          rw [List.reverse_append]
          rfl
        · rw [List.nodup_append]
          refine ⟨hnd, List.nodup_singleton _, ?_⟩
          intro a ha hb
          have : a = cand := by
            cases hb with
            | head => rfl
            | tail _ hx => cases hx
          rw [this] at ha
          exact hnotin ha
        · simp [hlen]
        · intro r hr
          cases List.mem_append.mp hr with
          | inl h => exact hsub r h
          | inr h =>
            have : r = cand := by
              cases h with
              | head => rfl
              | tail _ hx => cases hx
            rw [this]
            exact hcandmem

/-- After 1000 successful `Claim "v"` calls the root's set covers all 1000
candidates, so the 1001st call exhausts the generator and panics with the
heap unchanged. -/
theorem claimSeq_v_1001 :
    ∃ rets : List String,
      claimSeq freshRoot 0 "v" 1000 =
        Sum.inr ([⟨none, rets.reverse⟩], rets) ∧
      rets.Nodup ∧ rets.length = 1000 ∧
      claimSeq freshRoot 0 "v" 1001 = Sum.inl [⟨none, rets.reverse⟩] := by
  obtain ⟨rets, hcs, hnd, hlen, hsub⟩ := claimSeq_v_invariant 1000 le_rfl
  set ds := rets.reverse with hds
  have hsv : defaultSafeNameFunc "v" = "v" := by decide
  have hdsn : ds.Nodup := by rw [hds]; exact List.nodup_reverse.mpr hnd
  have hdssub : ∀ c ∈ ds, c ∈ candList := by
    intro c hc
    apply hsub
    rw [hds] at hc
    exact List.mem_reverse.mp hc
  have hds_len : ds.length = 1000 := by rw [hds, List.length_reverse, hlen]
  have hsp := List.subperm_of_subset hdsn hdssub
  have hperm := hsp.perm_of_length_le (by rw [candList_length, hds_len])
  have hcand_in : ∀ c ∈ candList, c ∈ ds := fun c hc => hperm.mem_iff.mpr hc
  have hv : ds.contains "v" = true :=
    List.elem_eq_true_of_mem (hcand_in "v" (List.mem_cons_self _ _))
  have hu : defaultUniqueNameFunc [⟨none, ds⟩] 0 "v" false = none := by
    unfold defaultUniqueNameFunc
    rw [hsv]
    apply findFreeFrom_none_of
    intro m _ hm2
    rw [defined_false, memDefs_root]
    have hmc : "v" ++ natDec m ∈ candList :=
      List.mem_cons_of_mem _
        (List.mem_map.mpr ⟨m, List.mem_range.mpr (by omega), rfl⟩)
    exact List.elem_eq_true_of_mem (hcand_in _ hmc)
  have hfail := claim_exhausted ds "v" (by rw [hsv]; exact hv) hu
  refine ⟨rets, hcs, hnd, hlen, ?_⟩
  rw [show (1001 : Nat) = 1000 + 1 from rfl, claimSeq, hcs]
  simp only
  rw [hfail]

/-! ### Statements of the claims -/

theorem mem_chain_self (σ : List GoScope) (i : Nat) : i ∈ chain σ i := by
  unfold chain
  rw [chainAux]
  exact List.mem_cons_self _ _

/-- The spec's four sanitizer steps as standalone stages (filter; empty
fallback; reserved-word prepend; leading-character prepend). -/
def filterStage (s : String) : String := ⟨s.data.filter validIdentChar⟩

/-- Reserved-word / predeclared-name stage of the sanitizer. -/
def reservedStage (s : String) : String :=
  if isKeyword s || isPredeclared s then "_" ++ s else s

/-- Leading-character stage of the sanitizer. -/
def leadingStage (s : String) : String :=
  if !goIsLetter (headRune s) && headRune s != '_' then "_" ++ s else s

/-- Outcome of a claim call, as needed by C9: if the call panicked, the
heap at the moment of the panic is the original one. -/
def abortPreserves (σ : List GoScope) :
    Sum (List GoScope) (List GoScope × String) → Prop
  | Sum.inl σb => σb = σ
  | Sum.inr _ => True

/-- C1: a successful `ClaimGlobal(n, s)` checks the whole ancestor chain of
`n` (its result was recursively free beforehand) and its result ends up in
the local set of `n` and of every ancestor of `n`; in particular, with root
`g1` and child `s1`, `s1.ClaimGlobal("panic")` returns `"_panic"` and a
subsequent `g1.Claim("panic")` returns `"_panic0"`. -/
theorem claimGlobal_checks_and_propagates :
    (∀ σ i raw σ2 r, wfHeap σ = true → i < σ.length →
      ClaimGlobal σ i raw = Sum.inr (σ2, r) →
      defined σ i r true = false ∧
      ∀ j ∈ chain σ i, memDefs σ2 j r = true) ∧
    ClaimGlobal rootAndChild 1 "panic" =
      Sum.inr ([⟨none, ["_panic"]⟩, ⟨some 0, ["_panic"]⟩], "_panic") ∧
    Claim [⟨none, ["_panic"]⟩, ⟨some 0, ["_panic"]⟩] 0 "panic" =
      Sum.inr ([⟨none, ["_panic0", "_panic"]⟩, ⟨some 0, ["_panic"]⟩],
        "_panic0") := by
  refine ⟨?_, by decide, by decide⟩
  intro σ i raw σ2 r hwf hlen h
  cases claimGlobal_cases σ i raw hwf hlen with
  | inl hsucc =>
    obtain ⟨σ2', r', heq, hfree, hmem⟩ := hsucc
    rw [h] at heq
    cases heq with
    | refl => exact ⟨hfree, hmem⟩
  | inr hfail => rw [h] at hfail; cases hfail

theorem claimGlobal_checks_and_propagates_witness :
    wfHeap rootAndChild = true ∧ 1 < rootAndChild.length ∧
    (defined rootAndChild 1 "_panic" true = false ∧
      ∀ j ∈ chain rootAndChild 1,
        memDefs [⟨none, ["_panic"]⟩, ⟨some 0, ["_panic"]⟩] j "_panic" = true) :=
  ⟨by decide, by decide,
    claimGlobal_checks_and_propagates.1 rootAndChild 1 "panic" _ "_panic"
      (by decide) (by decide) (by decide)⟩

/-- C2: a successful `Claim(n, s)` changes scope `n` alone (every other
heap slot is untouched), its membership test is purely local, and it may
return a name already present in an ancestor (lexical shadowing), as the
concrete root-and-child example shows. -/
theorem claim_is_local :
    (∀ σ i raw σ2 r, Claim σ i raw = Sum.inr (σ2, r) →
      (∀ j, j ≠ i → σ2.get? j = σ.get? j) ∧ σ2.length = σ.length) ∧
    (∀ σ j n, defined σ j n false = memDefs σ j n) ∧
    Claim [⟨none, ["x"]⟩, ⟨some 0, []⟩] 1 "x" =
      Sum.inr ([⟨none, ["x"]⟩, ⟨some 0, ["x"]⟩], "x") ∧
    memDefs [⟨none, ["x"]⟩, ⟨some 0, []⟩] 0 "x" = true := by
  refine ⟨?_, defined_false, by decide, by decide⟩
  intro σ i raw σ2 r h
  unfold Claim define at h
  obtain ⟨-, hσ2, -⟩ := defineF_local (σ.length + 2) σ i _ σ2 r h
  rw [hσ2]
  exact ⟨fun j hj => addDef_get_ne σ _ hj, addDef_length σ i r⟩

theorem claim_is_local_witness :
    ([⟨none, ["x"]⟩, ⟨some 0, ["x"]⟩] : List GoScope).get? 0 =
      ([⟨none, ["x"]⟩, ⟨some 0, []⟩] : List GoScope).get? 0 :=
  (claim_is_local.1 [⟨none, ["x"]⟩, ⟨some 0, []⟩] 1 "x"
    [⟨none, ["x"]⟩, ⟨some 0, ["x"]⟩] "x" (by decide)).1 0 (by decide)

/-- C3: the sanitizer is exactly the composition filter → empty fallback →
reserved-word prepend → leading-character prepend, and consequently on an
empty scope `Claim("")` returns `"v"`, `Claim("panic")` returns `"_panic"`,
`Claim("func")` returns `"_func"`, and `Claim("123")` returns `"_123"`. -/
theorem sanitizer_stages_and_values :
    (∀ s, defaultSafeNameFunc s =
      if (filterStage s).data = [] then "v"
      else leadingStage (reservedStage (filterStage s))) ∧
    Claim freshRoot 0 "" = Sum.inr ([⟨none, ["v"]⟩], "v") ∧
    Claim freshRoot 0 "panic" = Sum.inr ([⟨none, ["_panic"]⟩], "_panic") ∧
    Claim freshRoot 0 "func" = Sum.inr ([⟨none, ["_func"]⟩], "_func") ∧
    Claim freshRoot 0 "123" = Sum.inr ([⟨none, ["_123"]⟩], "_123") := by
  refine ⟨?_, by decide, by decide, by decide, by decide⟩
  intro s
  rfl

/-- C4: the default sanitizer is idempotent. -/
theorem sanitizer_idempotent :
    ∀ s, defaultSafeNameFunc (defaultSafeNameFunc s) = defaultSafeNameFunc s :=
  sanitize_idem

/-- C5: two successive successful local claims on the same scope return
distinct strings, and each returns a name that was not in the scope's local
set before its call. -/
theorem successive_claims_distinct :
    ∀ σ i a b σ1 r1 σ2 r2, a ≠ b →
      Claim σ i a = Sum.inr (σ1, r1) → Claim σ1 i b = Sum.inr (σ2, r2) →
      r1 ≠ r2 ∧ memDefs σ i r1 = false ∧ memDefs σ1 i r2 = false := by
  intro σ i a b σ1 r1 σ2 r2 _ h1 h2
  unfold Claim define at h1 h2
  obtain ⟨hfresh1, -, hmem1⟩ := defineF_local (σ.length + 2) σ i _ σ1 r1 h1
  obtain ⟨hfresh2, -, -⟩ := defineF_local (σ1.length + 2) σ1 i _ σ2 r2 h2
  refine ⟨?_, hfresh1, hfresh2⟩
  intro he
  rw [← he, hmem1] at hfresh2
  cases hfresh2

theorem successive_claims_distinct_witness :
    "x" ≠ "y" ∧
    memDefs freshRoot 0 "x" = false ∧
    memDefs [⟨none, ["x"]⟩] 0 "y" = false :=
  successive_claims_distinct freshRoot 0 "x" "y" [⟨none, ["x"]⟩] "x"
    [⟨none, ["y", "x"]⟩] "y" (by decide) (by decide) (by decide)

/-- C6: the unique-name generator returns the first free suffixed candidate
`base0, base1, …` with a hard cap of 999 attempts, after which it is fatal;
consequently 1000 repeated `Claim "v"` calls on a fresh default scope all
succeed with pairwise distinct results and the 1001st call panics. -/
theorem unique_generator_first_free_and_bounded :
    (∀ σ i name rec r, defaultUniqueNameFunc σ i name rec = some r →
      ∃ k, k < 999 ∧ r = defaultSafeNameFunc name ++ natDec k ∧
        defined σ i r rec = false ∧
        ∀ m, m < k →
          defined σ i (defaultSafeNameFunc name ++ natDec m) rec = true) ∧
    (∀ σ i name rec, defaultUniqueNameFunc σ i name rec = none →
      ∀ m, m < 999 →
        defined σ i (defaultSafeNameFunc name ++ natDec m) rec = true) ∧
    (∃ rets : List String,
      claimSeq freshRoot 0 "v" 1000 = Sum.inr ([⟨none, rets.reverse⟩], rets) ∧
      rets.Nodup ∧ rets.length = 1000) ∧
    (∃ σb, claimSeq freshRoot 0 "v" 1001 = Sum.inl σb) := by
  refine ⟨?_, ?_, ?_, ?_⟩
  · intro σ i name rec r h
    unfold defaultUniqueNameFunc at h
    obtain ⟨k, -, hlt, hr, hfree, hmin⟩ := findFreeFrom_some σ i _ rec 999 0 r h
    exact ⟨k, by omega, hr, hfree, fun m hm => hmin m (by omega) hm⟩
  · intro σ i name rec h m hm
    unfold defaultUniqueNameFunc at h
    exact findFreeFrom_none σ i _ rec 999 0 h m (by omega) (by omega)
  · obtain ⟨rets, hcs, hnd, hlen, -⟩ := claimSeq_v_1001
    exact ⟨rets, hcs, hnd, hlen⟩
  · obtain ⟨rets, -, -, -, hfail⟩ := claimSeq_v_1001
    exact ⟨_, hfail⟩

theorem unique_generator_first_free_and_bounded_witness :
    ∃ k, k < 999 ∧ ("v0" : String) = defaultSafeNameFunc "v" ++ natDec k ∧
      defined freshRoot 0 "v0" false = false ∧
      ∀ m, m < k →
        defined freshRoot 0 (defaultSafeNameFunc "v" ++ natDec m) false = true :=
  unique_generator_first_free_and_bounded.1 freshRoot 0 "v" false "v0"
    (by decide)

/-- C7: the default suggestion heuristic lowercases the first character,
appends the lowercase of each later uppercase character, falls back to the
single first letter on acronym runs or malformed input, and sanitizes its
result (so the result is a sanitizer fixed point); worked values as in the
spec. -/
theorem suggest_values_and_sanitized :
    Suggest freshRoot 0 "a" = "a" ∧
    Suggest freshRoot 0 "aPerson" = "ap" ∧
    Suggest freshRoot 0 "HTTP" = "h" ∧
    Suggest freshRoot 0 "FxUxNxC" = "_func" ∧
    Suggest freshRoot 0 "_" = "v" ∧
    (∀ input, defaultSafeNameFunc (defaultSuggestVarNameFunc input) =
      defaultSuggestVarNameFunc input) := by
  refine ⟨by decide, by decide, by decide, by decide, by decide, ?_⟩
  intro input
  unfold defaultSuggestVarNameFunc
  exact sanitize_idem _

/-- C8: `Exported` fails with the invalid-identifier error exactly when its
input is not a legal identifier; on legal identifiers it capitalizes /
strips as specified, failing with the distinct no-public-form error when
the string is exhausted: `Exported "x" = "X"`, `Exported "X" = "X"`,
`Exported "_X" = "X"`, `Exported "_"` fails with no-public-form, and
`Exported ""` fails with invalid-identifier. -/
theorem exported_errors_and_values :
    (∀ s, Exported s = Except.error ExpErr.invalidIdent ↔
      goIsIdentifier s = false) ∧
    Exported "x" = Except.ok "X" ∧
    Exported "X" = Except.ok "X" ∧
    Exported "_X" = Except.ok "X" ∧
    Exported "_" = Except.error ExpErr.noPublicForm ∧
    Exported "" = Except.error ExpErr.invalidIdent := by
  refine ⟨?_, by decide, by decide, by decide, by decide, by decide⟩
  intro s
  constructor
  · intro h
    cases hid : goIsIdentifier s with
    | false => rfl
    | true =>
      unfold Exported at h
      rw [hid] at h
      simp only [Bool.not_true, Bool.false_eq_true, if_false] at h
      cases hc : exportedCore s.data with
      | none => rw [hc] at h; cases h
      | some l => rw [hc] at h; cases h
  · intro h
    unfold Exported
    rw [h]
    rfl

/-- C9: `Claim` and `ClaimGlobal` are atomic on failure: when the
unique-name generator exhausts its cap and the call panics, the heap at the
moment of the panic is exactly the heap before the call. -/
theorem claims_atomic_on_failure :
    ∀ σ i name, wfHeap σ = true → i < σ.length →
      abortPreserves σ (Claim σ i name) ∧
      abortPreserves σ (ClaimGlobal σ i name) := by
  intro σ i name hwf hlen
  constructor
  · cases hres : Claim σ i name with
    | inl σb =>
      unfold Claim define at hres
      have := defineF_local_fail (σ.length + 2) σ i _ σb hres
      unfold abortPreserves
      exact this
    | inr pr => unfold abortPreserves; trivial
  · cases claimGlobal_cases σ i name hwf hlen with
    | inl hsucc =>
      obtain ⟨σ2, r, heq, -, -⟩ := hsucc
      rw [heq]
      unfold abortPreserves
      trivial
    | inr hfail =>
      rw [hfail]
      unfold abortPreserves
      rfl

theorem claims_atomic_on_failure_witness :
    abortPreserves freshRoot (Claim freshRoot 0 "v") ∧
    abortPreserves freshRoot (ClaimGlobal freshRoot 0 "v") :=
  claims_atomic_on_failure freshRoot 0 "v" (by decide) (by decide)

/-- C10 counterexample: `Unexported` is not idempotent on every legal
identifier: `Unexported "Break"` is `"break"`, a keyword, on which the
outer `Unexported` call panics instead of returning `"break"`. -/
theorem unexported_not_idempotent_on_keywords :
    goIsIdentifier "Break" = true ∧
    Unexported "Break" = some "break" ∧
    (Unexported "Break").bind Unexported ≠ Unexported "Break" := by decide

/-- C10 (amended): `Unexported` is idempotent on legal identifiers whose
lowercased form is still a legal identifier (lowercasing can produce a
keyword, on which the outer call panics), and whenever `Exported x`
succeeds returning `r`, `Exported r` returns `r` unchanged. -/
theorem visibility_transforms_idempotent :
    (∀ x r, Unexported x = some r → goIsIdentifier r = true →
      Unexported r = some r) ∧
    (∀ x r, Exported x = Except.ok r → Exported r = Except.ok r) := by
  constructor
  · intro x r h hidr
    unfold Unexported at h
    cases hid : goIsIdentifier x with
    | false => rw [hid] at h; cases h
    | true =>
      rw [hid] at h
      simp only [Bool.not_true, Bool.false_eq_true, if_false,
        Option.some.injEq] at h
      unfold Unexported
      rw [hidr]
      simp only [Bool.not_true, Bool.false_eq_true, if_false,
        Option.some.injEq]
      have hdata : r.data = unexportedCore x.data := by rw [← h]
      apply String.ext
      rw [hdata, unexportedCore_idem]
  · intro x r h
    exact (exported_fix h).2

theorem visibility_transforms_idempotent_witness :
    Unexported "x" = some "x" ∧ Exported "X" = Except.ok "X" :=
  ⟨visibility_transforms_idempotent.1 "X" "x" (by decide) (by decide),
    visibility_transforms_idempotent.2 "x" "X" (by decide)⟩
